import Mathlib

/-!
Verification of the aleph-os kernel's physical-memory mapping and interrupt
subsystems against its natural-language specification.

The definitions below are a shallow embedding of the Rust sources:
machine integers (`u64`/`usize`) are modelled as `Nat` (with explicit
side conditions where overflow or underflow could matter), stateful code
is modelled by explicit state passing, and fallible code returns
`Option`/`Except`.  Source locations are given in each doc comment.
-/

namespace AlephOS

/-! ## Physical memory map (src/kernel/src/mem.rs) -/

/-- Embeds `PhysicalMemoryMap<V>` from `src/kernel/src/mem.rs`: a fixed base
virtual address and an atomically updated size, both modelled as `Nat`.
The atomic is modelled by explicit state passing (this layer is
single-threaded at boot; the atomicity itself is not modelled). -/
structure PhysicalMemoryMap where
  base : Nat
  size : Nat
deriving DecidableEq

/-- Embeds `PhysicalMemoryMap::mapped` (src/kernel/src/mem.rs lines 107-114):
`if addr.to_usize() < self.size.load(..) { Some(self.base + addr.to_usize()) } else { None }`. -/
def PhysicalMemoryMap.mapped (m : PhysicalMemoryMap) (addr : Nat) : Option Nat :=
  if addr < m.size then some (m.base + addr) else none

/-- Embeds `PhysicalMemoryMap::extend` (src/kernel/src/mem.rs lines 116-122):
`self.size.fetch_max(size, ..)` sets the size to the maximum of the old size
and `size` and returns the previous size.  The updated map is returned
together with the previous size. -/
def PhysicalMemoryMap.extend (m : PhysicalMemoryMap) (size : Nat) :
    PhysicalMemoryMap × Nat :=
  ({ m with size := max m.size size }, m.size)

/-! ## Theorems for the physical memory map -/

/-- Claim C4: for every physical address `a` and every state of the
`PhysicalMemoryMap`, `mapped a` returns `some (base + a)` exactly when
`a` is strictly below the current size, and `none` otherwise. -/
theorem mapped_iff_below_size (m : PhysicalMemoryMap) (a : Nat) :
    (m.mapped a = some (m.base + a) ↔ a < m.size) ∧
    (m.mapped a = none ↔ m.size ≤ a) := by
  unfold PhysicalMemoryMap.mapped
  split_ifs with h <;> simp_all

/-- Claim C5 counterexample: on a map whose size is already 5, `extend 1`
followed by `extend 0` leaves the size at 5, not at `n = 1`, so the claim
as stated (for every state) is false. -/
theorem extend_counterexample :
    ((({ base := 0, size := 5 } : PhysicalMemoryMap).extend 1).1.extend 0).1.size = 5 ∧
    (5 : Nat) ≠ 1 := by
  constructor
  · rfl
  · decide

/-- Claim C5 (amended): `extend n` sets the size to `max old n` and returns
the old size; `extend n` followed by `extend m` with `m < n` leaves the size
at `max old n` — which equals `n` whenever the old size was at most `n`
(in particular on the freshly created map of size 0).  The size never
decreases. -/
theorem extend_monotone (m : PhysicalMemoryMap) (n k : Nat) (h : k < n) :
    (m.extend n).1.size = max m.size n ∧
    (m.extend n).2 = m.size ∧
    ((m.extend n).1.extend k).1.size = max m.size n ∧
    (m.size ≤ n → ((m.extend n).1.extend k).1.size = n) ∧
    m.size ≤ (m.extend n).1.size := by
  unfold PhysicalMemoryMap.extend
  dsimp only
  omega

/-- Witness for `extend_monotone` at a fresh map, sizes `n = 2`, `k = 1`. -/
theorem extend_monotone_witness :
    ((({ base := 0, size := 0 } : PhysicalMemoryMap).extend 2).1.extend 1).1.size = 2 :=
  ((extend_monotone { base := 0, size := 0 } 2 1 (by decide)).2.2.2.1 (by decide))

/-! ## Pager: mapping physical memory (src/kernel/src/arch/x86_64/mem.rs) -/

/-- The huge-page chunk size used by `map_physical_mem`
(`PhysFrame::<Size2MiB>`, src/kernel/src/arch/x86_64/mem.rs line 108). -/
def SIZE_2MIB : Nat := 0x200000

/-- The base of the physical memory map
(`PHYSICAL_MEMORY_MAP`, src/kernel/src/arch/x86_64/mem.rs lines 41-42). -/
def PMM_BASE : Nat := 0xffff800000000000

/-- Embeds the `while` loop of `PageMapping::map_physical_mem`
(src/kernel/src/arch/x86_64/mem.rs lines 108-137).  `frame` counts 2 MiB
chunks (the source's `frame.start_address()` is `frame * SIZE_2MIB`); the
loop runs while `frame.start_address() < mem_size`.  The page-table
insertion `mapper.map_to(..)` lives in the external `x86_64` crate and is
abstracted as the oracle `mapOk frame`: when it fails the function returns
`Err(())` at once; when it succeeds the source advances `frame` and `page`
and calls `PHYSICAL_MEMORY_MAP.extend(frame.start_address())` with the new
boundary `(frame + 1) * SIZE_2MIB`.  When the loop finishes it returns
`Ok(0)` (line 137).  The global `PHYSICAL_MEMORY_MAP` is threaded as the
`pmm` argument. -/
def mapPhysicalMemLoop (mapOk : Nat → Bool) (memSize : Nat) (frame : Nat)
    (pmm : PhysicalMemoryMap) : Except Unit Nat × PhysicalMemoryMap :=
  if frame * SIZE_2MIB < memSize then
    if mapOk frame then
      mapPhysicalMemLoop mapOk memSize (frame + 1)
        ((pmm.extend ((frame + 1) * SIZE_2MIB)).1)
    else (Except.error (), pmm)
  else (Except.ok 0, pmm)
termination_by memSize - frame * SIZE_2MIB
decreasing_by
  simp only [SIZE_2MIB] at *
  omega

/-- Embeds `PageMapping::map_physical_mem` as called at boot: the loop is
entered with `frame = 0` and the global `PHYSICAL_MEMORY_MAP` freshly
created with size 0 (src/kernel/src/mem.rs lines 94-100 and
src/kernel/src/arch/x86_64/mem.rs lines 41-42, 108-137). -/
def map_physical_mem (mapOk : Nat → Bool) (memSize : Nat) :
    Except Unit Nat × PhysicalMemoryMap :=
  mapPhysicalMemLoop mapOk memSize 0 { base := PMM_BASE, size := 0 }

/-- Number of 2 MiB chunks the loop attempts: the ceiling of
`memSize / SIZE_2MIB` (a derived quantity used only in theorem
statements). -/
def numChunks (memSize : Nat) : Nat := (memSize + SIZE_2MIB - 1) / SIZE_2MIB

/-! ### Helper lemmas about the mapping loop -/

/-- Whenever the loop returns a success outcome, the returned value is 0. -/
theorem mapLoop_ok_value (mapOk : Nat → Bool) (memSize : Nat) :
    ∀ n frame pmm v pmm', memSize - frame * SIZE_2MIB = n →
      mapPhysicalMemLoop mapOk memSize frame pmm = (Except.ok v, pmm') →
      v = 0 := by
  intro n
  induction n using Nat.strong_induction_on with
  | _ n ih =>
    intro frame pmm v pmm' hn h
    rw [mapPhysicalMemLoop] at h
    split at h
    · rename_i hcond
      split at h
      · have hlt : memSize - (frame + 1) * SIZE_2MIB < n := by
          simp only [SIZE_2MIB] at *
          omega
        exact ih _ hlt (frame + 1) _ v pmm' rfl h
      · simp at h
    · simp at h
      exact h.1.symm

/-- Starting the loop at chunk `frame` with the map's size equal to the
byte boundary `frame * SIZE_2MIB`, a success outcome leaves the size at
`max (frame * SIZE_2MIB) (SIZE_2MIB * numChunks memSize)` and the base
unchanged. -/
theorem mapLoop_ok_size (mapOk : Nat → Bool) (memSize b : Nat) :
    ∀ n frame v pmm', memSize - frame * SIZE_2MIB = n →
      mapPhysicalMemLoop mapOk memSize frame { base := b, size := frame * SIZE_2MIB } =
        (Except.ok v, pmm') →
      pmm' = { base := b,
               size := max (frame * SIZE_2MIB) (SIZE_2MIB * numChunks memSize) } := by
  intro n
  induction n using Nat.strong_induction_on with
  | _ n ih =>
    intro frame v pmm' hn h
    rw [mapPhysicalMemLoop] at h
    split at h
    · rename_i hcond
      split at h
      · have hle : frame * SIZE_2MIB ≤ (frame + 1) * SIZE_2MIB := by
          simp only [SIZE_2MIB]
          omega
        have hstep :
            (PhysicalMemoryMap.extend { base := b, size := frame * SIZE_2MIB }
              ((frame + 1) * SIZE_2MIB)).1 =
            { base := b, size := (frame + 1) * SIZE_2MIB } := by
          have hm : max (frame * SIZE_2MIB) ((frame + 1) * SIZE_2MIB) =
              (frame + 1) * SIZE_2MIB := by
            omega
          simp [PhysicalMemoryMap.extend, hm]
        rw [hstep] at h
        have hlt : memSize - (frame + 1) * SIZE_2MIB < n := by
          simp only [SIZE_2MIB] at *
          omega
        have heq := ih _ hlt (frame + 1) v pmm' rfl h
        rw [heq]
        have hle1 : (frame + 1) * SIZE_2MIB ≤ SIZE_2MIB * numChunks memSize := by
          simp only [numChunks, SIZE_2MIB] at hcond ⊢
          omega
        have hm1 : max ((frame + 1) * SIZE_2MIB) (SIZE_2MIB * numChunks memSize) =
            SIZE_2MIB * numChunks memSize := by
          omega
        have hle0 : frame * SIZE_2MIB ≤ SIZE_2MIB * numChunks memSize := by
          simp only [numChunks, SIZE_2MIB] at hcond ⊢
          omega
        have hm0 : max (frame * SIZE_2MIB) (SIZE_2MIB * numChunks memSize) =
            SIZE_2MIB * numChunks memSize := by
          omega
        rw [hm1, hm0]
      · simp at h
    · rename_i hcond
      simp at h
      rw [← h.2]
      have hge : SIZE_2MIB * numChunks memSize ≤ frame * SIZE_2MIB := by
        simp only [numChunks, SIZE_2MIB] at hcond ⊢
        omega
      have hm : max (frame * SIZE_2MIB) (SIZE_2MIB * numChunks memSize) =
          frame * SIZE_2MIB := by
        omega
      exact congrArg (fun s => PhysicalMemoryMap.mk b s) hm.symm

/-- If chunks `0, .., k-1` succeed and chunk `k` (still inside the target
range) fails, the loop started at chunk `i ≤ k` with size `i * SIZE_2MIB`
returns an error with the size left at `k * SIZE_2MIB`. -/
theorem mapLoop_error_boundary (mapOk : Nat → Bool) (memSize b k : Nat)
    (hok : ∀ j, j < k → mapOk j = true) (hk : mapOk k = false)
    (hlt : k * SIZE_2MIB < memSize) :
    ∀ d i, k - i = d → i ≤ k →
      mapPhysicalMemLoop mapOk memSize i { base := b, size := i * SIZE_2MIB } =
        (Except.error (), { base := b, size := k * SIZE_2MIB }) := by
  intro d
  induction d with
  | zero =>
    intro i hd hik
    have hik' : i = k := by omega
    subst hik'
    rw [mapPhysicalMemLoop]
    rw [if_pos hlt, hk]
    simp
  | succ d ih =>
    intro i hd hik
    have hikk : i < k := by omega
    have hcond : i * SIZE_2MIB < memSize := by
      simp only [SIZE_2MIB] at *
      have : i * 0x200000 < k * 0x200000 := by omega
      omega
    rw [mapPhysicalMemLoop, if_pos hcond, hok i hikk]
    have hle : i * SIZE_2MIB ≤ (i + 1) * SIZE_2MIB := by
      simp only [SIZE_2MIB]
      omega
    have hstep :
        (PhysicalMemoryMap.extend { base := b, size := i * SIZE_2MIB }
          ((i + 1) * SIZE_2MIB)).1 =
        { base := b, size := (i + 1) * SIZE_2MIB } := by
      simp [PhysicalMemoryMap.extend, Nat.max_eq_right hle]
    simp only [if_pos rfl]
    rw [hstep]
    exact ih (i + 1) (by omega) (by omega)

/-! ### Theorems for `map_physical_mem` -/

/-- Claim C1 counterexample: mapping a single 2 MiB chunk successfully
returns the success value 0 even though 0x200000 bytes of physical memory
were mapped (the final map size), so the success value does not equal the
number of bytes mapped. -/
theorem map_physical_mem_returns_zero_counterexample :
    map_physical_mem (fun _ => true) 0x200000 =
      (Except.ok 0, { base := PMM_BASE, size := 0x200000 }) ∧
    (0x200000 : Nat) ≠ 0 := by
  constructor
  · unfold map_physical_mem
    rw [mapPhysicalMemLoop]
    norm_num [SIZE_2MIB]
    rw [mapPhysicalMemLoop]
    norm_num [SIZE_2MIB, PhysicalMemoryMap.extend]
  · decide

/-- Claim C1 (amended): whenever `map_physical_mem` returns a success
outcome, the returned value is always 0 (`Ok(0)`, line 137); the number
of bytes mapped is recorded only in the `PhysicalMemoryMap`'s size, not
in the return value. -/
theorem map_physical_mem_ok_value (mapOk : Nat → Bool) (memSize v : Nat)
    (pmm : PhysicalMemoryMap)
    (h : map_physical_mem mapOk memSize = (Except.ok v, pmm)) : v = 0 :=
  mapLoop_ok_value mapOk memSize _ 0 _ v pmm rfl h

/-- Witness for `map_physical_mem_ok_value`: with `memSize = 0` the loop
exits immediately with `Ok(0)`. -/
theorem map_physical_mem_ok_value_witness : (0 : Nat) = 0 :=
  map_physical_mem_ok_value (fun _ => true) 0 0 { base := PMM_BASE, size := 0 }
    (by rw [map_physical_mem, mapPhysicalMemLoop]; norm_num)

/-- Claim C10: for `0 < memSize`, a successful `map_physical_mem` leaves
the `PhysicalMemoryMap` size equal to `memSize` rounded up to the next
multiple of the 2 MiB chunk: the size is a multiple of `SIZE_2MIB`, is at
least `memSize` (never smaller), and is strictly below
`memSize + SIZE_2MIB` (so it may end strictly above `memSize`). -/
theorem map_physical_mem_rounds_up (mapOk : Nat → Bool) (memSize v : Nat)
    (pmm : PhysicalMemoryMap) (h0 : 0 < memSize)
    (h : map_physical_mem mapOk memSize = (Except.ok v, pmm)) :
    pmm.size = SIZE_2MIB * numChunks memSize ∧
    SIZE_2MIB ∣ pmm.size ∧
    memSize ≤ pmm.size ∧
    pmm.size < memSize + SIZE_2MIB := by
  unfold map_physical_mem at h
  have hloop := mapLoop_ok_size mapOk memSize PMM_BASE (memSize - 0 * SIZE_2MIB)
    0 v pmm rfl (by simpa using h)
  have h0 : 0 * SIZE_2MIB = 0 := Nat.zero_mul _
  have hmax : max (0 * SIZE_2MIB) (SIZE_2MIB * numChunks memSize) =
      SIZE_2MIB * numChunks memSize := by
    omega
  rw [hmax] at hloop
  have hsize : pmm.size = SIZE_2MIB * numChunks memSize := by rw [hloop]
  refine ⟨hsize, ?_, ?_, ?_⟩
  · rw [hsize]
    exact ⟨numChunks memSize, rfl⟩
  · rw [hsize]
    simp only [numChunks, SIZE_2MIB]
    omega
  · rw [hsize]
    simp only [numChunks, SIZE_2MIB]
    omega

/-- Witness for `map_physical_mem_rounds_up` at `memSize = 0x300000`
(one and a half chunks): the final size is two full chunks. -/
theorem map_physical_mem_rounds_up_witness :
    ({ base := PMM_BASE, size := 0x400000 } : PhysicalMemoryMap).size =
      SIZE_2MIB * numChunks 0x300000 ∧
    SIZE_2MIB ∣ ({ base := PMM_BASE, size := 0x400000 } : PhysicalMemoryMap).size ∧
    0x300000 ≤ ({ base := PMM_BASE, size := 0x400000 } : PhysicalMemoryMap).size ∧
    ({ base := PMM_BASE, size := 0x400000 } : PhysicalMemoryMap).size <
      0x300000 + SIZE_2MIB :=
  map_physical_mem_rounds_up (fun _ => true) 0x300000 0
    { base := PMM_BASE, size := 0x400000 } (by decide)
    (by
      unfold map_physical_mem
      rw [mapPhysicalMemLoop]
      norm_num [SIZE_2MIB]
      rw [mapPhysicalMemLoop]
      norm_num [SIZE_2MIB, PhysicalMemoryMap.extend]
      rw [mapPhysicalMemLoop]
      norm_num [SIZE_2MIB, PhysicalMemoryMap.extend])

/-- Claim C6: if every chunk before `k` maps successfully and the
page-table insertion for chunk `k` (still inside the target range) fails,
`map_physical_mem` returns an error outcome immediately and the
`PhysicalMemoryMap` size is exactly the byte boundary `k * SIZE_2MIB` of
the successfully mapped chunks — the already-extended size is not rolled
back. -/
theorem map_physical_mem_error_no_rollback (mapOk : Nat → Bool) (memSize k : Nat)
    (hok : ∀ j, j < k → mapOk j = true) (hk : mapOk k = false)
    (hlt : k * SIZE_2MIB < memSize) :
    map_physical_mem mapOk memSize =
      (Except.error (), { base := PMM_BASE, size := k * SIZE_2MIB }) := by
  have := mapLoop_error_boundary mapOk memSize PMM_BASE k hok hk hlt k 0 (by omega)
    (by omega)
  simpa using this

/-- Witness for `map_physical_mem_error_no_rollback`: chunk 0 succeeds,
chunk 1 fails, leaving the size at one chunk. -/
theorem map_physical_mem_error_no_rollback_witness :
    map_physical_mem (fun j => decide (j < 1)) 0x400000 =
      (Except.error (), { base := PMM_BASE, size := 1 * SIZE_2MIB }) :=
  map_physical_mem_error_no_rollback (fun j => decide (j < 1)) 0x400000 1
    (fun j hj => by simpa using hj) (by decide) (by decide)

/-! ## BOOTBOOT memory map and free-frame iterator (src/kernel/src/bootboot.rs) -/

/-- Embeds `MMapEnt` (src/kernel/src/bootboot.rs lines 173-181): `ptr` is the
physical address, and `size` is the raw size field whose low 4 bits encode
the region type.  Both are `u64` in the source, modelled as `Nat`. -/
structure MMapEnt where
  ptr : Nat
  size : Nat
deriving DecidableEq

/-- Embeds `MMapEnt::address` (src/kernel/src/bootboot.rs lines 184-187). -/
def MMapEnt.address (e : MMapEnt) : Nat := e.ptr

/-- Embeds `MMapEnt::size` (src/kernel/src/bootboot.rs lines 189-192):
`self.size & !0xf`; on `u64` the mask `!0xf` is `0xfffffffffffffff0`.
Named `sizeVal` because the Lean field `size` holds the raw value. -/
def MMapEnt.sizeVal (e : MMapEnt) : Nat := e.size &&& 0xfffffffffffffff0

/-- Embeds `MemType` (src/kernel/src/bootboot.rs lines 211-222). -/
inductive MemType where
  | Used
  | Free
  | Acpi
  | Mmio
deriving DecidableEq

/-- Embeds `MMapEnt::mem_type` (src/kernel/src/bootboot.rs lines 199-207):
matches on `self.size & 0xf`. -/
def MMapEnt.mem_type (e : MMapEnt) : MemType :=
  match e.size &&& 0xf with
  | 1 => MemType.Free
  | 2 => MemType.Acpi
  | 3 => MemType.Mmio
  | _ => MemType.Used

/-- Embeds `FreeFrames` (src/kernel/src/bootboot.rs lines 224-229): the
remaining memory-map entries (`slice::Iter` becomes a list) and the
current `Range<u64>` of frame numbers, as a `(start, stop)` pair. -/
structure FreeFrames where
  mem_map : List MMapEnt
  frames : Nat × Nat
deriving DecidableEq

/-- One `Range::next` step: yields the start and advances it when the range
is nonempty (`Iterator for Range<u64>`). -/
def rangeNext (r : Nat × Nat) : Option Nat × (Nat × Nat) :=
  if r.1 < r.2 then (some r.1, (r.1 + 1, r.2)) else (none, r)

/-- Embeds the range computation of `FreeFrames::next`
(src/kernel/src/bootboot.rs lines 245-251): `offset = address & frame_mask`,
`start = address / FRAME_SIZE`, and the `(start, len)` pair, skipping the
partially aligned leading bytes when `offset != 0`.  The subtraction
`mmap_ent.size() - offset` is `u64` arithmetic in the source; it is
modelled as truncated `Nat` subtraction, which agrees with the source
whenever `offset ≤ size()` (the well-formedness assumption `mmWF` used by
the general theorems below). -/
def entRange (fs : Nat) (ent : MMapEnt) : Nat × Nat :=
  let offset := ent.address &&& (fs - 1)
  let start := ent.address / fs
  if offset = 0 then (start, ent.sizeVal / fs)
  else (start + 1, (ent.sizeVal - offset) / fs)

/-- Embeds the `while frame.is_none()` loop of `FreeFrames::next`
(src/kernel/src/bootboot.rs lines 238-256), entered when the stored range
is exhausted.  Each fuel unit is one iteration of the `while` body.  The
body advances `self.mem_map` only inside `if let Some(mmap_ent) = ..`; once
the (fused) memory-map iterator is exhausted the body does nothing, so the
source loop can never exit — `none` here means the loop has not produced a
frame within `fuel` iterations.  Non-free regions (`continue`) and regions
whose clipped range `start..(start + len)` (see `entRange`) is empty also
consume one iteration each. -/
def ffNextLoop (fs : Nat) : Nat → List MMapEnt → Nat × Nat → Option (Nat × FreeFrames)
  | 0, _, _ => none
  | fuel + 1, mmap, frames =>
    match mmap with
    | [] => ffNextLoop fs fuel [] frames
    | ent :: rest =>
      if ent.mem_type ≠ MemType.Free then
        ffNextLoop fs fuel rest frames
      else
        match rangeNext ((entRange fs ent).1, (entRange fs ent).1 + (entRange fs ent).2) with
        | (some f, frames3) => some (f, ⟨rest, frames3⟩)
        | (none, frames3) => ffNextLoop fs fuel rest frames3

/-- Embeds `FreeFrames::next` (src/kernel/src/bootboot.rs lines 234-259)
with frame size `fs` (the source's `FRAME_SIZE` const generic, a power of
two by the `const` assertion).  First tries `self.frames.next()`; on
`None` it runs the `while` loop (`ffNextLoop`) with the given fuel.  The
final `frame.map(|frame| frame * FRAME_SIZE)` scales the frame number.
A `some` result is a frame the source returns as `Some(..)`; `none` means
the source has not returned within `fuel` loop iterations (the source has
no path that returns Rust `None`: the `while` loop only exits once a frame
is found). -/
def ffNext (fs fuel : Nat) (st : FreeFrames) : Option (Nat × FreeFrames) :=
  match rangeNext st.frames with
  | (some f, frames2) => some (f * fs, ⟨st.mem_map, frames2⟩)
  | (none, frames2) =>
    (ffNextLoop fs fuel st.mem_map frames2).map fun p => (p.1 * fs, p.2)

/-- Embeds `Bootboot::free_frames` (src/kernel/src/bootboot.rs lines
134-142): the iterator starts with the whole memory map and the empty
range `0..0`. -/
def freeFrames (mm : List MMapEnt) : FreeFrames := ⟨mm, (0, 0)⟩

/-- Collects up to `n` frames by repeatedly calling `ffNext`, giving each
call the same loop-iteration budget `fuel`; stops as soon as a call
produces nothing within the budget. -/
def ffTake (fs fuel : Nat) : Nat → FreeFrames → List Nat
  | 0, _ => []
  | n + 1, st =>
    match ffNext fs fuel st with
    | none => []
    | some (a, st2) => a :: ffTake fs fuel n st2

/-! ### Helper lemmas about the free-frame iterator -/

/-- With the memory-map iterator exhausted, the `while` body never
produces a frame, whatever the fuel. -/
theorem ffNextLoop_nil (fs : Nat) : ∀ fuel r, ffNextLoop fs fuel [] r = none := by
  intro fuel
  induction fuel with
  | zero => intro r; rfl
  | succ fuel ih => intro r; exact ih r

/-- Loop results are stable under extra fuel. -/
theorem ffNextLoop_mono (fs : Nat) : ∀ fuel mmap r x, ffNextLoop fs fuel mmap r = some x →
    ∀ fuel', fuel ≤ fuel' → ffNextLoop fs fuel' mmap r = some x := by
  intro fuel
  induction fuel with
  | zero =>
    intro mmap r x h
    simp [ffNextLoop] at h
  | succ fuel ih =>
    intro mmap r x h fuel' hf
    obtain ⟨fuel'', rfl⟩ : ∃ k, fuel' = k + 1 := ⟨fuel' - 1, by omega⟩
    have hf'' : fuel ≤ fuel'' := by omega
    match mmap with
    | [] =>
      rw [ffNextLoop_nil] at h
      exact absurd h (by simp)
    | ent :: rest =>
      rw [ffNextLoop] at h ⊢
      by_cases hfree : ent.mem_type ≠ MemType.Free
      · rw [if_pos hfree] at h ⊢
        exact ih rest r x h fuel'' hf''
      · rw [if_neg hfree] at h ⊢
        rcases hrn : rangeNext ((entRange fs ent).1,
            (entRange fs ent).1 + (entRange fs ent).2) with ⟨o, f3⟩
        rw [hrn] at h
        match o with
        | some f => exact h
        | none => exact ih _ _ x h fuel'' hf''

/-- Claim C2 (the code violates it): once the memory-map iterator is
exhausted, `FreeFrames::next` never terminates, rather than returning
`None`: for every loop-iteration budget `fuel` the call produces no
result.  The `while frame.is_none()` loop has no exit once
`self.mem_map.next()` yields `None` (the fused slice iterator then yields
`None` forever and the loop body does nothing), and the function has no
path that returns `None`.  Shown for an empty memory map and for a map
whose single entry is not free. -/
theorem freeFrames_next_never_terminates (fuel : Nat) :
    ffNext 0x1000 fuel (freeFrames []) = none ∧
    ffNext 0x1000 fuel (freeFrames [{ ptr := 0, size := 0x2000 }]) = none := by
  constructor
  · simp [ffNext, freeFrames, rangeNext, ffNextLoop_nil]
  · cases fuel with
    | zero => rfl
    | succ fuel =>
      have hmt : ({ ptr := 0, size := 0x2000 } : MMapEnt).mem_type = MemType.Used := by
        decide
      simp [ffNext, freeFrames, rangeNext, ffNextLoop, hmt, ffNextLoop_nil]

/-- Claim C3 counterexample: on a memory map whose first free region
starts at physical address 0, the very first yielded frame address is 0,
so `FreeFrames::next` excludes neither frame zero nor frames below an
identity-mapped threshold (no threshold test appears in its code; the
caller in `arch/x86_64.rs` merely discards the first yielded frame). -/
theorem freeFrames_yields_frame_zero :
    ffNext 0x1000 1 (freeFrames [{ ptr := 0, size := 0x2001 }]) =
      some (0, { mem_map := [], frames := (1, 2) }) := by
  decide

/-- Unfolding step for `ffTake` when the next call yields a frame. -/
theorem ffTake_cons (fs fuel n : Nat) (st st2 : FreeFrames) (a : Nat)
    (h : ffNext fs fuel st = some (a, st2)) :
    ffTake fs fuel (n + 1) st = a :: ffTake fs fuel n st2 := by
  simp only [ffTake]
  rw [h]

/-- Unfolding step for `ffTake` when the next call produces nothing. -/
theorem ffTake_none (fs fuel n : Nat) (st : FreeFrames)
    (h : ffNext fs fuel st = none) :
    ffTake fs fuel (n + 1) st = [] := by
  simp only [ffTake]
  rw [h]

/-- When the stored range is nonempty, `FreeFrames::next` yields its start
scaled by the frame size, without touching the memory map or the loop. -/
theorem ffNext_of_range (fs fuel s e : Nat) (mm : List MMapEnt) (hs : s < e) :
    ffNext fs fuel ⟨mm, (s, e)⟩ = some (s * fs, ⟨mm, (s + 1, e)⟩) := by
  simp [ffNext, rangeNext, hs]

/-- Claim C7: over the single free region `[0x3000, 0x3000 + 0x5000)` with
frame size 0x1000 the free-frame sequence yields exactly
`0x3000, 0x4000, 0x5000, 0x6000, 0x7000`, once each, in ascending order
(asking for six frames returns only these five, whatever the loop budget);
over the unaligned free region `[0x2500, 0x2500 + 0x2000)` it yields only
the single fully contained aligned frame `0x3000`.  The raw `size` fields
`0x5001`/`0x2001` encode sizes `0x5000`/`0x2000` with type `Free`. -/
theorem freeFrames_enumeration (fuel : Nat) :
    ffTake 0x1000 (fuel + 1) 6 (freeFrames [{ ptr := 0x3000, size := 0x5001 }]) =
      [0x3000, 0x4000, 0x5000, 0x6000, 0x7000] ∧
    ffTake 0x1000 (fuel + 1) 6 (freeFrames [{ ptr := 0x2500, size := 0x2001 }]) =
      [0x3000] := by
  constructor
  · have h1 : ffNextLoop 0x1000 1 [{ ptr := 0x3000, size := 0x5001 }] (0, 0) =
        some (3, ⟨[], (4, 8)⟩) := by decide
    have h1' := ffNextLoop_mono 0x1000 1 _ _ _ h1 (fuel + 1) (by omega)
    have e1 : ffNext 0x1000 (fuel + 1) (freeFrames [{ ptr := 0x3000, size := 0x5001 }]) =
        some (0x3000, ⟨[], (4, 8)⟩) := by
      show (ffNextLoop 0x1000 (fuel + 1) [{ ptr := 0x3000, size := 0x5001 }] (0, 0)).map
          (fun p => (p.1 * 0x1000, p.2)) = some (0x3000, ⟨[], (4, 8)⟩)
      rw [h1']
      rfl
    have e2 := ffNext_of_range 0x1000 (fuel + 1) 4 8 [] (by norm_num)
    have e3 := ffNext_of_range 0x1000 (fuel + 1) 5 8 [] (by norm_num)
    have e4 := ffNext_of_range 0x1000 (fuel + 1) 6 8 [] (by norm_num)
    have e5 := ffNext_of_range 0x1000 (fuel + 1) 7 8 [] (by norm_num)
    norm_num at e2 e3 e4 e5
    have e6 : ffNext 0x1000 (fuel + 1) ⟨[], (8, 8)⟩ = none := by
      simp [ffNext, rangeNext, ffNextLoop_nil]
    rw [show (6 : Nat) = 5 + 1 from rfl, ffTake_cons _ _ _ _ _ _ e1,
      show (5 : Nat) = 4 + 1 from rfl, ffTake_cons _ _ _ _ _ _ e2,
      show (4 : Nat) = 3 + 1 from rfl, ffTake_cons _ _ _ _ _ _ e3,
      show (3 : Nat) = 2 + 1 from rfl, ffTake_cons _ _ _ _ _ _ e4,
      show (2 : Nat) = 1 + 1 from rfl, ffTake_cons _ _ _ _ _ _ e5,
      show (1 : Nat) = 0 + 1 from rfl, ffTake_none _ _ _ _ e6]
  · have h1 : ffNextLoop 0x1000 1 [{ ptr := 0x2500, size := 0x2001 }] (0, 0) =
        some (3, ⟨[], (4, 4)⟩) := by decide
    have h1' := ffNextLoop_mono 0x1000 1 _ _ _ h1 (fuel + 1) (by omega)
    have e1 : ffNext 0x1000 (fuel + 1) (freeFrames [{ ptr := 0x2500, size := 0x2001 }]) =
        some (0x3000, ⟨[], (4, 4)⟩) := by
      show (ffNextLoop 0x1000 (fuel + 1) [{ ptr := 0x2500, size := 0x2001 }] (0, 0)).map
          (fun p => (p.1 * 0x1000, p.2)) = some (0x3000, ⟨[], (4, 4)⟩)
      rw [h1']
      rfl
    have e2 : ffNext 0x1000 (fuel + 1) ⟨[], (4, 4)⟩ = none := by
      simp [ffNext, rangeNext, ffNextLoop_nil]
    rw [show (6 : Nat) = 5 + 1 from rfl, ffTake_cons _ _ _ _ _ _ e1,
      show (5 : Nat) = 4 + 1 from rfl, ffTake_none _ _ _ _ e2]

/-! ### What the free-frame iterator actually guarantees -/

/-- The address `a` lies inside a free region of the memory map `mm`
(`[address, address + size())` for an entry of type `Free`). -/
def inFreeRegion (mm : List MMapEnt) (a : Nat) : Prop :=
  ∃ e ∈ mm, e.mem_type = MemType.Free ∧ e.address ≤ a ∧ a < e.address + e.sizeVal

/-- Well-formedness of a memory map for frame size `fs`, under which the
`Nat` model of `FreeFrames::next` agrees with the source's `u64`
arithmetic: for each free entry the clipping subtraction
`size() - offset` does not underflow, and the region stays within the
`u64` range (so `frame * FRAME_SIZE` cannot wrap). -/
def mmWF (fs : Nat) (mm : List MMapEnt) : Prop :=
  ∀ e ∈ mm, e.mem_type = MemType.Free →
    e.address &&& (fs - 1) ≤ e.sizeVal ∧ e.address + e.sizeVal ≤ 2 ^ 64

/-- Zeta-expanded form of `entRange`. -/
theorem entRange_eq (fs : Nat) (ent : MMapEnt) :
    entRange fs ent =
      if ent.address &&& (fs - 1) = 0 then (ent.address / fs, ent.sizeVal / fs)
      else (ent.address / fs + 1,
        (ent.sizeVal - (ent.address &&& (fs - 1))) / fs) := rfl

/-- Every frame number in the clipped range of a free region gives an
address inside that region (frame size 0x1000, the kernel's `Size4KiB`
instantiation). -/
theorem entRange_covers (ent : MMapEnt)
    (hwf : ent.address &&& (0x1000 - 1) ≤ ent.sizeVal) :
    ∀ g, (entRange 0x1000 ent).1 ≤ g →
      g < (entRange 0x1000 ent).1 + (entRange 0x1000 ent).2 →
      ent.address ≤ g * 0x1000 ∧ g * 0x1000 < ent.address + ent.sizeVal := by
  have hpow : (0x1000 : Nat) - 1 = 2 ^ 12 - 1 := by norm_num
  have hmask : ent.address &&& (0x1000 - 1) = ent.address % 0x1000 := by
    rw [hpow, Nat.and_pow_two_sub_one_eq_mod]
  intro g hg1 hg2
  rw [entRange_eq, hmask] at hg1 hg2
  rw [hmask] at hwf
  by_cases h0 : ent.address % 0x1000 = 0
  · rw [if_pos h0] at hg1 hg2
    dsimp only at hg1 hg2
    constructor <;> omega
  · rw [if_neg h0] at hg1 hg2
    dsimp only at hg1 hg2
    constructor <;> omega

/-- Every frame the `while` loop produces, together with every frame left
in the range it stores, lies inside one free region of the original
memory map, and the remaining entries come from the original map. -/
theorem ffNextLoop_yield (mm0 : List MMapEnt) (hwf : mmWF 0x1000 mm0) :
    ∀ fuel mm r f st', (∀ e ∈ mm, e ∈ mm0) →
      ffNextLoop 0x1000 fuel mm r = some (f, st') →
      (∀ e ∈ st'.mem_map, e ∈ mm0) ∧
      ∃ ent ∈ mm0, ent.mem_type = MemType.Free ∧
        ∀ g, (g = f ∨ (st'.frames.1 ≤ g ∧ g < st'.frames.2)) →
          ent.address ≤ g * 0x1000 ∧ g * 0x1000 < ent.address + ent.sizeVal := by
  intro fuel
  induction fuel with
  | zero =>
    intro mm r f st' hmem h
    simp [ffNextLoop] at h
  | succ fuel ih =>
    intro mm r f st' hmem h
    match mm with
    | [] =>
      rw [ffNextLoop_nil] at h
      exact absurd h (by simp)
    | ent :: rest =>
      have hmemr : ∀ e ∈ rest, e ∈ mm0 := fun e he => hmem e (List.mem_cons_of_mem _ he)
      rw [ffNextLoop] at h
      by_cases hfree : ent.mem_type ≠ MemType.Free
      · rw [if_pos hfree] at h
        exact ih rest r f st' hmemr h
      · rw [if_neg hfree] at h
        push_neg at hfree
        rcases hrn : rangeNext ((entRange 0x1000 ent).1,
            (entRange 0x1000 ent).1 + (entRange 0x1000 ent).2) with ⟨o, f3⟩
        rw [hrn] at h
        have hent0 : ent ∈ mm0 := hmem ent (List.mem_cons_self _ _)
        match o with
        | some f0 =>
          simp only [Option.some.injEq, Prod.mk.injEq] at h
          obtain ⟨hf0, hst'⟩ := h
          unfold rangeNext at hrn
          split at hrn
          · rename_i hlt
            simp only [Prod.mk.injEq, Option.some.injEq] at hrn
            obtain ⟨ho, hf3⟩ := hrn
            subst hf0
            subst hst'
            refine ⟨hmemr, ent, hent0, hfree, ?_⟩
            intro g hg
            have hcov := entRange_covers ent (hwf ent hent0 hfree).1
            rcases hg with hg | hg
            · subst hg
              subst ho
              exact hcov _ (Nat.le_refl _) hlt
            · rw [← hf3] at hg
              dsimp only at hg
              subst ho
              exact hcov g (by omega) (by omega)
          · simp at hrn
        | none =>
          have := ih rest f3 f st' hmemr h
          exact this

/-- Invariant carried between successive `FreeFrames::next` calls: the
remaining memory-map entries come from the original map, and every frame
number still stored in the range maps into a free region of the original
map. -/
def ffInv (mm0 : List MMapEnt) (st : FreeFrames) : Prop :=
  (∀ e ∈ st.mem_map, e ∈ mm0) ∧
  ∀ g, st.frames.1 ≤ g → g < st.frames.2 →
    ∃ ent ∈ mm0, ent.mem_type = MemType.Free ∧
      ent.address ≤ g * 0x1000 ∧ g * 0x1000 < ent.address + ent.sizeVal

/-- A successful `FreeFrames::next` call yields a 0x1000-aligned address
inside a free region of the original map, and preserves the invariant. -/
theorem ffNext_sound (mm0 : List MMapEnt) (hwf : mmWF 0x1000 mm0)
    (fuel : Nat) (st : FreeFrames) (hinv : ffInv mm0 st) (x : Nat)
    (st' : FreeFrames) (h : ffNext 0x1000 fuel st = some (x, st')) :
    (0x1000 ∣ x ∧ inFreeRegion mm0 x) ∧ ffInv mm0 st' := by
  unfold ffNext at h
  rcases hrn : rangeNext st.frames with ⟨o, fr2⟩
  rw [hrn] at h
  unfold rangeNext at hrn
  match o with
  | some f =>
    simp only [Option.some.injEq, Prod.mk.injEq] at h
    obtain ⟨hx, hst'⟩ := h
    split at hrn
    · rename_i hlt
      simp only [Prod.mk.injEq, Option.some.injEq] at hrn
      obtain ⟨ho, hf2⟩ := hrn
      subst ho
      have hreg := hinv.2 st.frames.1 (Nat.le_refl _) hlt
      constructor
      · exact ⟨hx ▸ Dvd.intro_left _ rfl, hx ▸ hreg⟩
      · rw [← hst']
        refine ⟨hinv.1, ?_⟩
        intro g hg1 hg2
        rw [← hf2] at hg1 hg2
        dsimp only at hg1 hg2
        exact hinv.2 g (by omega) (by omega)
    · simp at hrn
  | none =>
    rw [Option.map_eq_some'] at h
    obtain ⟨⟨f, stl⟩, hloop, hmap⟩ := h
    simp only [Prod.mk.injEq] at hmap
    obtain ⟨hx, hst'⟩ := hmap
    have hy := ffNextLoop_yield mm0 hwf fuel st.mem_map fr2 f stl hinv.1 hloop
    obtain ⟨hsub, ent, hent, hfree, hcov⟩ := hy
    constructor
    · refine ⟨hx ▸ Dvd.intro_left _ rfl, ?_⟩
      rw [← hx]
      exact ⟨ent, hent, hfree, hcov f (Or.inl rfl)⟩
    · rw [← hst']
      refine ⟨hsub, ?_⟩
      intro g hg1 hg2
      exact ⟨ent, hent, hfree, hcov g (Or.inr ⟨hg1, hg2⟩)⟩

/-- All frames collected by `ffTake` from an invariant-satisfying state
are aligned and inside free regions. -/
theorem ffTake_sound (mm0 : List MMapEnt) (hwf : mmWF 0x1000 mm0) (fuel : Nat) :
    ∀ n st, ffInv mm0 st → ∀ x ∈ ffTake 0x1000 fuel n st,
      0x1000 ∣ x ∧ inFreeRegion mm0 x := by
  intro n
  induction n with
  | zero =>
    intro st hinv x hx
    simp [ffTake] at hx
  | succ n ih =>
    intro st hinv x hx
    rw [ffTake] at hx
    rcases hn : ffNext 0x1000 fuel st with _ | ⟨a, st2⟩
    · rw [hn] at hx
      simp at hx
    · rw [hn] at hx
      simp only [List.mem_cons] at hx
      have hs := ffNext_sound mm0 hwf fuel st hinv a st2 hn
      rcases hx with rfl | hx
      · exact hs.1
      · exact ih st2 hs.2 x hx

/-- Claim C3 (amended): `FreeFrames::next` itself performs no exclusion of
frame zero and no comparison against an identity-mapped threshold; what
holds of the iterator is that every yielded address is `FRAME_SIZE`-aligned
and lies inside a free region of the memory map (frame size 0x1000, the
kernel's instantiation).  Frame zero is removed only by the caller
(`arch/x86_64.rs` line 82), which discards the first yielded frame. -/
theorem freeFrames_yields_aligned_in_free (mm : List MMapEnt)
    (fuel n x : Nat) (hwf : mmWF 0x1000 mm)
    (hx : x ∈ ffTake 0x1000 fuel n (freeFrames mm)) :
    0x1000 ∣ x ∧ inFreeRegion mm x := by
  have hinv : ffInv mm (freeFrames mm) := by
    refine ⟨fun e he => he, ?_⟩
    intro g hg1 hg2
    simp [freeFrames] at hg1 hg2
  exact ffTake_sound mm hwf fuel n (freeFrames mm) hinv x hx

/-- Witness for `freeFrames_yields_aligned_in_free`: the single free
region `[0x3000, 0x8000)` yields `0x3000` first, which is aligned and in
the region. -/
theorem freeFrames_yields_aligned_in_free_witness :
    (0x1000 : Nat) ∣ 0x3000 ∧
    inFreeRegion [{ ptr := 0x3000, size := 0x5001 }] 0x3000 :=
  freeFrames_yields_aligned_in_free [{ ptr := 0x3000, size := 0x5001 }] 1 1 0x3000
    (by
      intro e he hfree
      rw [List.mem_singleton] at he
      subst he
      exact ⟨by decide, by decide⟩)
    (by decide)

/-! ## Gate descriptors and the interrupt descriptor table
(src/kernel/src/arch/x86_64/interrupt/idt.rs) -/

/-- Embeds `GateDescriptor` (src/kernel/src/arch/x86_64/interrupt/idt.rs
lines 85-100): the handler address split into bits 0-15 (`addr_lower`,
`u16`), bits 16-31 (`addr_middle`, `u16`) and bits 32-63 (`addr_upper`,
`u32`), the code-segment selector, an optional interrupt-stack-table
index, the attribute byte and a reserved zero word. -/
structure GateDescriptor where
  addr_lower : Nat
  selector : Nat
  ist_index : Option Nat
  attr : Nat
  addr_middle : Nat
  addr_upper : Nat
  reserved : Nat
deriving DecidableEq

/-- Embeds `Attributes::INTERRUPT_GATE` (idt.rs lines 107-114): present
bit 1, DPL 0, type interrupt gate (0xe), i.e. the byte 0x8e. -/
def INTERRUPT_GATE : Nat := 0x8e

/-- Embeds the descriptor construction of
`InterruptDescriptorTable::handler` (idt.rs lines 38-60):
`addr_lower = addr & 0xffff`, `addr_middle = (addr >> 16) & 0xffff`,
`addr_upper = addr >> 32` (the `try_into` cannot fail for a 64-bit
address), current code-segment selector `cs`, no IST index, the
`INTERRUPT_GATE` attribute, and zero reserved bits. -/
def gateDescriptorFor (addr cs : Nat) : GateDescriptor :=
  { addr_lower := addr &&& 0xffff
    selector := cs
    ist_index := none
    attr := INTERRUPT_GATE
    addr_middle := (addr >>> 16) &&& 0xffff
    addr_upper := addr >>> 32
    reserved := 0 }

/-- Embeds the atomic store `self.table[usize::from(V)].store(Some(..))`
of `InterruptDescriptorTable::handler` (idt.rs lines 49-59); the table of
256 `AtomicCell<Option<GateDescriptor>>` entries is modelled as a
function from vector numbers to optional descriptors. -/
def idtHandler (table : Fin 256 → Option GateDescriptor) (v : Fin 256)
    (addr cs : Nat) : Fin 256 → Option GateDescriptor :=
  Function.update table v (some (gateDescriptorFor addr cs))

/-- Claim C8: the descriptor stored by `InterruptDescriptorTable::handler`
splits the 64-bit handler address into three fields of 16, 16 and 32 bits
whose concatenation restores the address, and its attribute byte is the
present interrupt gate 0x8e (present bit 0x80 set). -/
theorem gate_descriptor_roundtrip (table : Fin 256 → Option GateDescriptor)
    (v : Fin 256) (addr cs : Nat) (h : addr < 2 ^ 64) :
    ∃ d, idtHandler table v addr cs v = some d ∧
      d.addr_lower + (d.addr_middle <<< 16) + (d.addr_upper <<< 32) = addr ∧
      d.addr_lower < 2 ^ 16 ∧ d.addr_middle < 2 ^ 16 ∧ d.addr_upper < 2 ^ 32 ∧
      d.attr = INTERRUPT_GATE ∧ d.attr &&& 0x80 = 0x80 := by
  refine ⟨gateDescriptorFor addr cs, ?_, ?_, ?_, ?_, ?_, rfl, ?_⟩
  · unfold idtHandler
    rw [Function.update_same]
  all_goals
    unfold gateDescriptorFor
    dsimp only
  · have hl : addr &&& 0xffff = addr % 2 ^ 16 := by
      have : (0xffff : Nat) = 2 ^ 16 - 1 := by norm_num
      rw [this, Nat.and_pow_two_sub_one_eq_mod]
    have hm : (addr >>> 16) &&& 0xffff = addr / 2 ^ 16 % 2 ^ 16 := by
      have : (0xffff : Nat) = 2 ^ 16 - 1 := by norm_num
      rw [this, Nat.and_pow_two_sub_one_eq_mod, Nat.shiftRight_eq_div_pow]
    have hu : addr >>> 32 = addr / 2 ^ 32 := Nat.shiftRight_eq_div_pow addr 32
    rw [hl, hm, hu, Nat.shiftLeft_eq, Nat.shiftLeft_eq]
    omega
  · have : (0xffff : Nat) = 2 ^ 16 - 1 := by norm_num
    rw [this, Nat.and_pow_two_sub_one_eq_mod]
    exact Nat.mod_lt _ (by norm_num)
  · have : (0xffff : Nat) = 2 ^ 16 - 1 := by norm_num
    rw [this, Nat.and_pow_two_sub_one_eq_mod]
    exact Nat.mod_lt _ (by norm_num)
  · rw [Nat.shiftRight_eq_div_pow]
    omega
  · decide

/-- Witness for `gate_descriptor_roundtrip` at the spec's example address
`0x123456789abcdef0` and vector 8. -/
theorem gate_descriptor_roundtrip_witness :
    ∃ d, idtHandler (fun _ => none) 8 0x123456789abcdef0 8 8 = some d ∧
      d.addr_lower + (d.addr_middle <<< 16) + (d.addr_upper <<< 32) =
        0x123456789abcdef0 ∧
      d.addr_lower < 2 ^ 16 ∧ d.addr_middle < 2 ^ 16 ∧ d.addr_upper < 2 ^ 32 ∧
      d.attr = INTERRUPT_GATE ∧ d.attr &&& 0x80 = 0x80 :=
  gate_descriptor_roundtrip (fun _ => none) 8 0x123456789abcdef0 8 (by norm_num)

/-! ## Initialization order (src/kernel/src/arch/x86_64/interrupt.rs and
src/kernel/src/arch/x86_64.rs) -/

/-- The two interrupt-table operations performed during initialization:
installing a handler descriptor for a vector, and loading the table into
the CPU's IDTR (`lidt`). -/
inductive IdtCmd where
  | install (v : Fin 256) (addr cs : Nat)
  | load

/-- Machine state for initialization: the table contents, and the list of
table snapshots observed at each `load` (most recent first). -/
structure IdtState where
  table : Fin 256 → Option GateDescriptor
  loads : List (Fin 256 → Option GateDescriptor)

/-- One initialization step: `install` stores a descriptor via
`idtHandler`; `load` records the table contents as seen by the CPU at the
moment the table is activated. -/
def stepIdt (st : IdtState) : IdtCmd → IdtState
  | IdtCmd.install v addr cs => { st with table := idtHandler st.table v addr cs }
  | IdtCmd.load => { st with loads := st.table :: st.loads }

/-- Runs a command sequence from a state. -/
def runIdt (cmds : List IdtCmd) (st : IdtState) : IdtState := cmds.foldl stepIdt st

/-- The freshly created table: all 256 entries empty
(`InterruptDescriptorTable::new`, idt.rs lines 26-35). -/
def initialIdtState : IdtState := { table := fun _ => none, loads := [] }

/-- Embeds `interrupt::init` (src/kernel/src/arch/x86_64/interrupt.rs
lines 22-33) as its sequence of table operations: `IDT.handler::<8>()`
installs the double-fault handler at vector 8, then `IDT.load()`
activates the table. -/
def interruptInitProg (dfAddr cs : Nat) : List IdtCmd :=
  [IdtCmd.install 8 dfAddr cs, IdtCmd.load]

/-- Embeds the table operations of `x86_64::init`
(src/kernel/src/arch/x86_64.rs lines 32-67): when the `INITIALIZED` guard
was already set the function returns at once (no operations); otherwise
it installs the double-fault handler (vector 8) and the
segment-not-present handler (vector 11) and then executes `lidt`. -/
def archInitProg (initialized : Bool) (dfAddr snpAddr cs : Nat) : List IdtCmd :=
  if initialized then []
  else [IdtCmd.install 8 dfAddr cs, IdtCmd.install 11 snpAddr cs, IdtCmd.load]

/-- Claim C9: in every execution of interrupt/architecture initialization,
every activation of the descriptor table observes a non-empty double-fault
entry (vector 8): the double-fault handler is installed strictly before
the table is loaded, in both `interrupt::init` and `x86_64::init` (and a
guarded repeat of `x86_64::init` performs no activation at all). -/
theorem double_fault_installed_before_load (dfAddr snpAddr cs : Nat)
    (b : Bool) (t : Fin 256 → Option GateDescriptor)
    (hmem : t ∈ (runIdt (interruptInitProg dfAddr cs) initialIdtState).loads ∨
      t ∈ (runIdt (archInitProg b dfAddr snpAddr cs) initialIdtState).loads) :
    t 8 ≠ none := by
  rcases hmem with hmem | hmem
  · simp [runIdt, interruptInitProg, initialIdtState, stepIdt] at hmem
    subst hmem
    simp [idtHandler]
  · cases b with
    | true => simp [runIdt, archInitProg, initialIdtState] at hmem
    | false =>
      simp [runIdt, archInitProg, initialIdtState, stepIdt] at hmem
      subst hmem
      have h11 : (11 : Fin 256) ≠ 8 := by decide
      simp [idtHandler, Function.update_noteq h11]

/-- Witness for `double_fault_installed_before_load`: the table loaded by
`interrupt::init` with handler address 1 and selector 8. -/
theorem double_fault_installed_before_load_witness :
    idtHandler (fun _ => none) 8 1 8 8 ≠ none :=
  double_fault_installed_before_load 1 0 8 false
    (idtHandler (fun _ => none) 8 1 8)
    (Or.inl (by simp [runIdt, interruptInitProg, initialIdtState, stepIdt]))

end AlephOS
